import Mathlib

/-!
Verification of the StackSets custom-resource Lambda
(`CITCO/solutions/StackSetsResource/FunctionCode/lambda_function.py`).

The Python module is shallowly embedded below.  Python dicts are modelled as
insertion-ordered association lists (`List (κ × ν)`) with first-match lookup,
which matches dict semantics as long as keys are unique (dicts never hold a
duplicate key).  The dict keys `"account/region"` produced by `flatten_stacks`
are modelled as pairs `(account, region)`; this is faithful whenever account
ids contain no `'/'`, which the code itself assumes when it splits the key
back apart in `group_by_account`.  Parameter-override payloads are carried
around opaquely as `Ov`; the code only ever compares them for equality.
-/

set_option maxRecDepth 4000

namespace StackSets

/-- Account ids are strings (12-digit AWS account numbers in practice). -/
abbrev Account := String

/-- Region names are strings. -/
abbrev Region := String

/-- A flat-map key: one `(account, region)` pair, i.e. the `"%s/%s"` dict key. -/
abbrev Key := Account × Region

/-- A parameter-override payload: the raw `ParameterOverrides` value, a list of
single-entry key/value objects.  The code stores and compares these values but
never inspects their shape, so any type with decidable equality would do. -/
abbrev Ov := List (String × String)

/-! ### Association lists modelling Python dicts -/

/-- Dict lookup `d[k]` (first matching entry; dict keys are unique). -/
def alLookup {α β : Type} [DecidableEq α] : List (α × β) → α → Option β
  | [], _ => none
  | (k, v) :: rest, k0 => if k = k0 then some v else alLookup rest k0

/-- Dict membership test `k in d`. -/
def alHasKey {α β : Type} [DecidableEq α] (l : List (α × β)) (k : α) : Bool :=
  (alLookup l k).isSome

/-- In-place update `d[k] = f d[k]` of an existing entry (keeps its position,
models mutating the value object stored under `k`). -/
def alModify {α β : Type} [DecidableEq α] : List (α × β) → α → (β → β) → List (α × β)
  | [], _, _ => []
  | (k, v) :: rest, k0, f => if k = k0 then (k, f v) :: rest else (k, v) :: alModify rest k0 f

/-! ### `change_requires_update` (source lines 42-56)

Given a list of attributes, compare old and new values attribute by
attribute; any presence change or value change returns `True`. -/

def change_requires_update {V : Type} [DecidableEq V] (attributes : List String)
    (old_values current_values : String → Option V) : Bool :=
  match attributes with
  | [] => false
  | attr :: rest =>
    match old_values attr, current_values attr with
    | none, some _ => true
    | some _, none => true
    | some ov, some cv =>
      if cv ≠ ov then true else change_requires_update rest old_values current_values
    | none, none => change_requires_update rest old_values current_values

/-! ### `convert_ops_prefs` (source lines 59-74) -/

/-- A converted operation-preference value: either the `int(value)` of a
numeric preference key or a value passed through unchanged. -/
inductive OpsVal
  | asInt (n : Int)
  | raw (s : String)
deriving DecidableEq

/-- The four keys whose values `convert_ops_prefs` feeds through `int(...)`. -/
def needs_conversion : List String :=
  ["FailureToleranceCount", "FailureTolerancePercentage",
   "MaxConcurrentCount", "MaxConcurrentPercentage"]

/-- The keys that may appear in a converted operation-preferences map. -/
def allowed_ops_keys : List String := needs_conversion ++ ["RegionOrder"]

/-- Digit accumulator for `pyInt`: `none` as soon as a non-digit appears. -/
def pyDigits : List Char → Nat → Option Nat
  | [], acc => some acc
  | c :: rest, acc =>
    if c.isDigit then pyDigits rest (acc * 10 + (c.toNat - '0'.toNat)) else none

/-- Model of Python `int(value)` on a string: an optional `'-'` sign followed
by at least one decimal digit; anything else raises `ValueError` (`none`).
(A hand-rolled model is used because `String.toInt?` does not reduce in the
kernel; it is only ever applied through `convert_ops_prefs`.) -/
def pyInt (s : String) : Option Int :=
  match s.data with
  | [] => none
  | '-' :: rest =>
    match rest with
    | [] => none
    | _ => (pyDigits rest 0).map (fun n => -(n : Int))
  | l => (pyDigits l 0).map Int.ofNat

/-- `convert_ops_prefs`: numeric keys converted with `int(...)` (modelled by
`String.toInt?`; a non-numeric value raises `ValueError`, modelled as
`Except.error`), `RegionOrder` passed through, any other key skipped with a
warning. -/
def convert_ops_prefs : List (String × String) → Except String (List (String × OpsVal))
  | [] => .ok []
  | (key, value) :: rest =>
    if key ∈ needs_conversion then
      match pyInt value with
      | some n =>
        match convert_ops_prefs rest with
        | .error e => .error e
        | .ok m => .ok ((key, OpsVal.asInt n) :: m)
      | none => .error ("invalid literal for int with base 10: " ++ value)
    else if key = "RegionOrder" then
      match convert_ops_prefs rest with
      | .error e => .error e
      | .ok m => .ok (("RegionOrder", OpsVal.raw value) :: m)
    else
      convert_ops_prefs rest

/-! ### Stack-instance specifications and `flatten_stacks` (source lines 99-113) -/

/-- One entry of the `StackInstances` resource property: account list, region
list and optional parameter overrides. -/
structure StackInstanceSpec where
  Accounts : List Account
  Regions : List Region
  ParameterOverrides : Option Ov
deriving DecidableEq

/-- The override payload stored for a spec: its `ParameterOverrides` when the
key is present, else `[]`. -/
def spec_overrides (s : StackInstanceSpec) : Ov := s.ParameterOverrides.getD []

/-- A flat instance map: dict from `(account, region)` to overrides. -/
abbrev FlatMap := List (Key × Ov)

/-- Inner loop of `flatten_stacks`: `for region in instance['Regions']`,
checking for an already-present key before inserting. -/
def flatten_regions (account : Account) (ov : Ov) :
    FlatMap → List Region → Except String FlatMap
  | flat, [] => .ok flat
  | flat, region :: rest =>
    if alHasKey flat (account, region) then
      .error (account ++ " / " ++ region ++ " is defined multiple times")
    else
      flatten_regions account ov (flat ++ [((account, region), ov)]) rest

/-- Middle loop of `flatten_stacks`: `for account in instance['Accounts']`. -/
def flatten_accounts (regions : List Region) (ov : Ov) :
    FlatMap → List Account → Except String FlatMap
  | flat, [] => .ok flat
  | flat, account :: rest =>
    match flatten_regions account ov flat regions with
    | .error e => .error e
    | .ok flat1 => flatten_accounts regions ov flat1 rest

/-- Outer loop of `flatten_stacks`: `for instance in stackinstances`. -/
def flatten_go : FlatMap → List StackInstanceSpec → Except String FlatMap
  | flat, [] => .ok flat
  | flat, inst :: rest =>
    match flatten_accounts inst.Regions (spec_overrides inst) flat inst.Accounts with
    | .error e => .error e
    | .ok flat1 => flatten_go flat1 rest

/-- `flatten_stacks`: expand every spec to its `(account, region)` pairs,
raising on a duplicate pair. -/
def flatten_stacks (stackinstances : List StackInstanceSpec) : Except String FlatMap :=
  flatten_go [] stackinstances

/-- Specification-side view: the `(account, region)` pairs one spec produces,
in loop order. -/
def pairs_of : List Account → List Region → List Key
  | [], _ => []
  | a :: rest, rs => rs.map (fun r => (a, r)) ++ pairs_of rest rs

/-- Specification-side view: all pairs produced across the spec list, with
multiplicity, in loop order. -/
def all_pairs : List StackInstanceSpec → List Key
  | [] => []
  | s :: rest => pairs_of s.Accounts s.Regions ++ all_pairs rest

/-- Specification-side view: all pairs annotated with their spec's overrides. -/
def all_entries : List StackInstanceSpec → FlatMap
  | [] => []
  | s :: rest =>
    (pairs_of s.Accounts s.Regions).map (fun k => (k, spec_overrides s)) ++ all_entries rest

/-- Invariant used to reason about `flatten_stacks`: a key list is fresh for
an accumulated flat map when it has no internal duplicates and meets none of
the keys already present. -/
def Fresh (flat : FlatMap) (ks : List Key) : Prop :=
  ks.Nodup ∧ ∀ k ∈ ks, k ∉ flat.map Prod.fst

/-! ### `group_by_account` (source lines 116-129) -/

/-- The value stored per account while grouping: a (mutated-in-place) region
list plus the overrides shared by the whole group. -/
structure AccountGroup where
  regions : List Region
  overrides : Ov
deriving DecidableEq

/-- The accumulator dict of `group_by_account`. -/
abbrev Grouped := List (Account × AccountGroup)

/-- Loop body of `group_by_account`: split each key back into account and
region; extend the account's region list when the overrides agree, raise when
they do not, start a fresh group for a new account. -/
def group_go (flat_stacks : Key → Ov) : List Key → Grouped → Except String Grouped
  | [], grouped => .ok grouped
  | (account, region) :: rest, grouped =>
    match alLookup grouped account with
    | some g =>
      if flat_stacks (account, region) = g.overrides then
        group_go flat_stacks rest
          (alModify grouped account (fun g0 => ⟨g0.regions ++ [region], g0.overrides⟩))
      else
        .error ("The overrides didn't match account group for " ++ account ++ "/" ++ region)
    | none =>
      group_go flat_stacks rest
        (grouped ++ [(account, ⟨[region], flat_stacks (account, region)⟩)])

/-- `group_by_account`: group regions by account and overrides.  `flat_stacks`
is the flat dict, passed as its lookup function (every key in `set` is in the
dict at every call site). -/
def group_by_account (set : List Key) (flat_stacks : Key → Ov) : Except String Grouped :=
  group_go flat_stacks set []

/-! ### `aggregate_instances` (source lines 132-154) -/

/-- One aggregated instance: accounts sharing one region list and overrides. -/
structure AggInstance where
  accounts : List Account
  regions : List Region
  overrides : Ov
deriving DecidableEq

/-- The `while accounts.keys()` loop of `aggregate_instances`: `popitem()`
takes the most recently inserted entry as the aggregation source, pulls out
every other account with an equal value, and emits one instance.  Structural
fuel (`accounts.length` at the top call) replaces the loop's termination
argument so the definition stays kernel-reducible. -/
def aggregate_go : Nat → Grouped → List AggInstance
  | 0, _ => []
  | _ + 1, [] => []
  | fuel + 1, p :: rest0 =>
    let source := (p :: rest0).getLast (List.cons_ne_nil p rest0)
    let rest := (p :: rest0).dropLast
    let values := source.2
    let aggregated_accounts := (rest.filter (fun q => decide (q.2 = values))).map Prod.fst
    let remaining := rest.filter (fun q => ! decide (q.2 = values))
    { accounts := aggregated_accounts ++ [source.1],
      regions := values.regions,
      overrides := values.overrides } :: aggregate_go fuel remaining

/-- `aggregate_instances`: group by account, then merge accounts whose grouped
value (regions list and overrides) coincides, to reduce API-call count. -/
def aggregate_instances (account_list : List Key) (flat_stacks : Key → Ov) :
    Except String (List AggInstance) :=
  match group_by_account account_list flat_stacks with
  | .error e => .error e
  | .ok accounts => .ok (aggregate_go accounts.length accounts)

/-! ### Expansion (specification side, for the round-trip claim) -/

/-- Expand a grouped-accounts dict back into its flat `(key, overrides)`
entries. -/
def expand_groups : Grouped → List (Key × Ov)
  | [] => []
  | (a, g) :: rest => g.regions.map (fun r => ((a, r), g.overrides)) ++ expand_groups rest

/-- Expand one account list with a shared region list and overrides. -/
def expand_accounts (regions : List Region) (ov : Ov) : List Account → List (Key × Ov)
  | [] => []
  | a :: rest => regions.map (fun r => ((a, r), ov)) ++ expand_accounts regions ov rest

/-- Expand a list of aggregated instances back into flat entries. -/
def expand_instances : List AggInstance → List (Key × Ov)
  | [] => []
  | i :: rest => expand_accounts i.regions i.overrides i.accounts ++ expand_instances rest

/-! ### The `update` handler's instance diff (source lines 526-528 and 579-585) -/

/-- `set(d)` on a dict: its key set. -/
def dict_keys (m : FlatMap) : Finset Key := (m.map Prod.fst).toFinset

/-- `to_add = list(set(new_stacks) - set(old_stacks))` (line 526). -/
def to_add (old_stacks new_stacks : FlatMap) : Finset Key :=
  dict_keys new_stacks \ dict_keys old_stacks

/-- `to_delete = list(set(old_stacks) - set(new_stacks))` (line 527). -/
def to_delete (old_stacks new_stacks : FlatMap) : Finset Key :=
  dict_keys old_stacks \ dict_keys new_stacks

/-- `to_compare = list(set(old_stacks).intersection(new_stacks))` (line 528). -/
def to_compare (old_stacks new_stacks : FlatMap) : Finset Key :=
  dict_keys old_stacks ∩ dict_keys new_stacks

/-- The members of `to_compare` appended to `to_update` by the loop at lines
579-585: those whose old and new overrides differ. -/
def to_update (old_stacks new_stacks : FlatMap) : Finset Key :=
  (to_compare old_stacks new_stacks).filter
    (fun k => ¬ (alLookup old_stacks k = alLookup new_stacks k))

/-- The members of `to_compare` the same loop leaves alone (the `SAME!`
branch): equal overrides on both sides. -/
def unchanged_part (old_stacks new_stacks : FlatMap) : Finset Key :=
  (to_compare old_stacks new_stacks).filter
    (fun k => alLookup old_stacks k = alLookup new_stacks k)

/-! ### The retry wrappers (source lines 157-311)

`launch_stacks`, `update_stacks`, `delete_stacks` and `update_stack_set` all
wrap one SDK call in the same `while True` loop: a successful call returns,
an `OperationInProgressException` sleeps 15 seconds and retries up to 20
attempts, and any other outcome ends the loop at that attempt.  The loop is
embedded once, parameterised by what each wrapper does at a terminal outcome
and at exhaustion; the underlying service is abstracted as a sequence
`outcomes : Nat → ApiOutcome` giving the result of the `n`-th call. -/

/-- The outcome of one underlying SDK call: a response with an HTTP status
code, or a `botocore` `ClientError` carrying an error code. -/
inductive ApiOutcome
  | success (httpStatus : Nat)
  | clientError (code : String)
deriving DecidableEq

/-- How a wrapper's loop ends: `return(response)` (or `return set_id`),
`return "some message"`, or `raise Exception(...)`. -/
inductive LoopResult
  | apiResponse
  | returnedString (msg : String)
  | raisedException (msg : String)
deriving DecidableEq

/-- Whether a loop result is a raised exception. -/
def LoopResult.isRaised : LoopResult → Bool
  | .raisedException _ => true
  | _ => false

/-- `sleep_time = 15` (seconds), identical in all four wrappers. -/
def sleep_time : Nat := 15

/-- `retries = 20`, identical in all four wrappers. -/
def retries : Nat := 20

/-- The only retryable condition: `e.response['Error']['Code'] ==
'OperationInProgressException'`. -/
def isRetryable (o : ApiOutcome) : Bool :=
  match o with
  | .clientError code => decide (code = "OperationInProgressException")
  | _ => false

/-- What the loop records besides its result: the number of underlying calls
made and the list of sleeps performed between attempts. -/
structure RetryState where
  result : LoopResult
  calls : Nat
  sleeps : List Nat
deriving DecidableEq

/-- The shared `while True` retry loop.  `this_try` counts in-progress errors
seen so far (and is also the 0-based index of the current call); `onStop`
says how the wrapper ends on the first non-retryable outcome; `onExhaust n`
is the wrapper's `this_try == retries` exit, receiving `this_try`.  `fuel`
is `retries - this_try` at every real call, so the `0` case is unreachable. -/
def retry_go (outcomes : Nat → ApiOutcome) (onStop : ApiOutcome → LoopResult)
    (onExhaust : Nat → LoopResult) : Nat → Nat → RetryState
  | this_try, 0 => ⟨onExhaust this_try, this_try, []⟩
  | this_try, fuel + 1 =>
    if isRetryable (outcomes this_try) then
      if this_try + 1 = retries then
        ⟨onExhaust (this_try + 1), this_try + 1, []⟩
      else
        let rest := retry_go outcomes onStop onExhaust (this_try + 1) fuel
        ⟨rest.result, rest.calls, sleep_time :: rest.sleeps⟩
    else
      ⟨onStop (outcomes this_try), this_try + 1, []⟩

/-- Terminal behaviour of `launch_stacks` (lines 178-191): return the
response on success; raise on `StackSetNotFoundException`; raise on any other
client error. -/
def launch_stop : ApiOutcome → LoopResult
  | .success _ => .apiResponse
  | .clientError code =>
    if code = "StackSetNotFoundException" then
      .raisedException "No StackSet matching set found. You must create before launching stacks."
    else
      .raisedException ("Error launching stack instance: " ++ code)

/-- `launch_stacks` exhaustion exit (lines 182-183): a *returned* string. -/
def launch_exhaust (this_try : Nat) : LoopResult :=
  .returnedString ("Failed to launch stacks after " ++ toString this_try ++ " tries")

/-- Terminal behaviour of `update_stacks` (lines 219-232): like
`launch_stacks` but with an `Unexpected error` message in the final branch. -/
def update_stop : ApiOutcome → LoopResult
  | .success _ => .apiResponse
  | .clientError code =>
    if code = "StackSetNotFoundException" then
      .raisedException "No StackSet matching set found. You must create before launching stacks."
    else
      .raisedException ("Unexpected error: " ++ code)

/-- `update_stacks` exhaustion exit (lines 223-224): a *returned* string. -/
def update_exhaust (this_try : Nat) : LoopResult :=
  .returnedString ("Failed to update stacks after " ++ toString this_try ++ " tries")

/-- Terminal behaviour of `delete_stacks` (lines 255-268): return the
response on success; *return* (not raise) a message on
`StackSetNotFoundException` and on any other client error. -/
def delete_stop : ApiOutcome → LoopResult
  | .success _ => .apiResponse
  | .clientError code =>
    if code = "StackSetNotFoundException" then
      .returnedString "No StackSet matching set found. You must create before launching stacks."
    else
      .returnedString ("Unexpected error: " ++ code)

/-- `delete_stacks` exhaustion exit (lines 259-260): a returned string. -/
def delete_exhaust (this_try : Nat) : LoopResult :=
  .returnedString ("Failed to delete stacks after " ++ toString this_try ++ " tries")

/-- Terminal behaviour of `update_stack_set` (lines 283-311): `return set_id`
when the response status is 200, raise an `HTTP Error` otherwise (that raise
is not a `ClientError`, so it propagates out of the `try`); raise on
`StackSetNotEmptyException`; raise on any other client error. -/
def update_stack_set_stop : ApiOutcome → LoopResult
  | .success httpStatus =>
    if httpStatus = 200 then .apiResponse else .raisedException "HTTP Error"
  | .clientError code =>
    if code = "StackSetNotEmptyException" then
      .raisedException "There are still stacks in set. You must delete these first."
    else
      .raisedException ("Unexpected error: " ++ code)

/-- `update_stack_set` exhaustion exit (lines 302-303): a *raised* exception
(whose message says "delete StackSet", as in the source). -/
def update_stack_set_exhaust (this_try : Nat) : LoopResult :=
  .raisedException ("Failed to delete StackSet after " ++ toString this_try ++ " tries.")

/-- The retry loop of `launch_stacks` run against an outcome sequence. -/
def launch_stacks_run (outcomes : Nat → ApiOutcome) : RetryState :=
  retry_go outcomes launch_stop launch_exhaust 0 retries

/-- The retry loop of `update_stacks` (the part after the `set_name` split). -/
def update_stacks_loop (outcomes : Nat → ApiOutcome) : RetryState :=
  retry_go outcomes update_stop update_exhaust 0 retries

/-- The retry loop of `delete_stacks` run against an outcome sequence. -/
def delete_stacks_run (outcomes : Nat → ApiOutcome) : RetryState :=
  retry_go outcomes delete_stop delete_exhaust 0 retries

/-- The retry loop of `update_stack_set` run against an outcome sequence. -/
def update_stack_set_run (outcomes : Nat → ApiOutcome) : RetryState :=
  retry_go outcomes update_stack_set_stop update_stack_set_exhaust 0 retries

/-- The number of attempts after which the loop stops: one past the index of
the first non-retryable outcome within the budget, or `retries` when every
budgeted attempt is in-progress. -/
def attempts_to_stop (outcomes : Nat → ApiOutcome) : Nat :=
  match (List.range retries).find? (fun i => ! isRetryable (outcomes i)) with
  | some i => i + 1
  | none => retries

/-- Generalisation of `attempts_to_stop` to a window of `fuel` attempts
starting at attempt `t` (used to state the loop invariant). -/
def stop_from (outcomes : Nat → ApiOutcome) (t fuel : Nat) : Nat :=
  match (List.range' t fuel).find? (fun i => ! isRetryable (outcomes i)) with
  | some i => i + 1
  | none => retries

/-! ### `update_stacks`' identifier split (source lines 203-206)

`(set_name, uid) = set_name.split(':')` unpacks the split of the stack-set
identifier on `':'` into exactly two names, and only the first is later sent
as `StackSetName`.  Identifiers are modelled as `List Char` so that Python's
`str.split(sep)` can be embedded directly. -/

/-- Python `str.split(sep)` for a one-character separator: always returns one
more part than there are separators, parts may be empty. -/
def pySplit (sep : Char) : List Char → List (List Char)
  | [] => [[]]
  | c :: rest =>
    if c = sep then
      [] :: pySplit sep rest
    else
      match pySplit sep rest with
      | [] => [[c]]
      | h :: t => (c :: h) :: t

/-- `update_stacks` up to and including its first SDK call decision: the
tuple unpacking of `set_name.split(':')` fails (a `ValueError`, before any
API call) unless the split has exactly two parts; otherwise the retry loop
runs and the truncated `name` part is what is sent to the API. -/
def update_stacks_run (set_name : List Char) (outcomes : Nat → ApiOutcome) :
    Except String (RetryState × List Char) :=
  match pySplit ':' set_name with
  | [name, _uid] => .ok (update_stacks_loop outcomes, name)
  | _ => .error "ValueError: unpacking set_name.split requires exactly two values"

/-- The number of underlying API calls `update_stacks` makes, counting the
unpacking failure as zero calls. -/
def update_stacks_calls (r : Except String (RetryState × List Char)) : Nat :=
  match r with
  | .error _ => 0
  | .ok (st, _) => st.calls

/-! ### The `delete` handler's sentinel short-circuit (source lines 611-679)

For the frame claim only the call structure matters: which wrapper-level
deletion calls the handler issues.  The handler is modelled as the list of
calls it makes: per-`StackInstances`-entry `delete_stack_instances` wrapper
calls, then the final `delete_stack_set` call, all skipped when the physical
resource id is the `'NONE'` sentinel (lines 625-627, before any call). -/

/-- The parts of a DELETE event the handler reads. -/
structure DeleteEvent where
  PhysicalResourceId : String
  StackInstances : Option (List StackInstanceSpec)
  OperationPreferences : Option (List (String × String))
deriving DecidableEq

/-- An external mutating call the `delete` handler can issue. -/
inductive ApiCall
  | deleteStackInstances (setId : String) (accounts : List Account) (regions : List Region)
  | deleteStackSet (setId : String)
deriving DecidableEq

/-- The `delete` handler's outgoing calls: nothing at all for the `'NONE'`
sentinel; otherwise one `delete_stacks` wrapper call per declared stack
instance (when `StackInstances` is present), then the stack-set deletion. -/
def delete_handler (event : DeleteEvent) : List ApiCall :=
  let set_id := event.PhysicalResourceId
  if set_id = "NONE" then
    []
  else
    (match event.StackInstances with
     | some instances =>
       instances.map (fun i => ApiCall.deleteStackInstances set_id i.Accounts i.Regions)
     | none => []) ++ [ApiCall.deleteStackSet set_id]

/-! ## Theorems -/

/-! ### Claim C2: the update handler's diff partitions the union of keyspaces -/

/-- Claim C2: for every pair of old and new flat instance maps, the four sets
the update handler works from — `to_add`, `to_delete`, the unchanged part of
the intersection, and `to_update` — are pairwise disjoint, and their union is
exactly the union of the two maps' key sets. -/
theorem update_diff_partition (old_stacks new_stacks : FlatMap) :
    to_add old_stacks new_stacks ∩ to_delete old_stacks new_stacks = ∅
    ∧ to_add old_stacks new_stacks ∩ unchanged_part old_stacks new_stacks = ∅
    ∧ to_add old_stacks new_stacks ∩ to_update old_stacks new_stacks = ∅
    ∧ to_delete old_stacks new_stacks ∩ unchanged_part old_stacks new_stacks = ∅
    ∧ to_delete old_stacks new_stacks ∩ to_update old_stacks new_stacks = ∅
    ∧ unchanged_part old_stacks new_stacks ∩ to_update old_stacks new_stacks = ∅
    ∧ to_add old_stacks new_stacks ∪ to_delete old_stacks new_stacks
        ∪ unchanged_part old_stacks new_stacks ∪ to_update old_stacks new_stacks
      = dict_keys old_stacks ∪ dict_keys new_stacks := by
  refine ⟨?_, ?_, ?_, ?_, ?_, ?_, ?_⟩ <;>
    · ext k
      simp only [to_add, to_delete, to_update, unchanged_part, to_compare,
        Finset.mem_inter, Finset.mem_sdiff, Finset.mem_filter, Finset.mem_union,
        Finset.not_mem_empty, iff_false, not_and, Finset.mem_sdiff]
      tauto

/-! ### Claim C7: `change_requires_update` detects exactly the real changes -/

/-- Claim C7: `change_requires_update` returns `true` exactly when some listed
attribute is present in one map but not the other, or present in both with
unequal values; on the old/new maps `A ↦ 1, B ↦ 2` and `A ↦ 1, B ↦ 3` it
returns `true`, and on identical maps it returns `false`. -/
theorem change_requires_update_spec :
    (∀ (V : Type) [DecidableEq V] (attributes : List String)
        (old_values current_values : String → Option V),
      (change_requires_update attributes old_values current_values = true ↔
        ∃ a ∈ attributes,
          ((old_values a).isSome = true ∧ (current_values a).isSome = false)
          ∨ ((old_values a).isSome = false ∧ (current_values a).isSome = true)
          ∨ (∃ x y, old_values a = some x ∧ current_values a = some y ∧ x ≠ y)))
    ∧ change_requires_update ["A", "B"]
        (fun a => if a = "A" then some 1 else if a = "B" then some 2 else none)
        (fun a => if a = "A" then some 1 else if a = "B" then some (3 : Nat) else none)
      = true
    ∧ (∀ (V : Type) [DecidableEq V] (attributes : List String)
        (vals : String → Option V),
      change_requires_update attributes vals vals = false) := by
  refine ⟨?_, by decide, ?_⟩
  · intro V _ attributes old_values current_values
    induction attributes with
    | nil => simp [change_requires_update]
    | cons a rest ih =>
      simp only [change_requires_update]
      rcases ho : old_values a with _ | ov <;> rcases hc : current_values a with _ | cv
      · simpa [List.mem_cons, ho, hc] using ih
      · simp only [List.mem_cons]
        constructor
        · intro _
          exact ⟨a, Or.inl rfl, Or.inr (Or.inl (by simp [ho, hc]))⟩
        · intro _; trivial
      · simp only [List.mem_cons]
        constructor
        · intro _
          exact ⟨a, Or.inl rfl, Or.inl (by simp [ho, hc])⟩
        · intro _; trivial
      · by_cases hne : cv = ov
        · subst hne
          have hhead : ¬ (((old_values a).isSome = true ∧ (current_values a).isSome = false)
              ∨ ((old_values a).isSome = false ∧ (current_values a).isSome = true)
              ∨ (∃ x y, old_values a = some x ∧ current_values a = some y ∧ x ≠ y)) := by
            simp [ho, hc]
          simp only [ne_eq, not_true_eq_false, if_false, ih, List.mem_cons]
          constructor
          · rintro ⟨b, hb, hP⟩; exact ⟨b, Or.inr hb, hP⟩
          · rintro ⟨b, hb | hb, hP⟩
            · exact absurd (hb ▸ hP) hhead
            · exact ⟨b, hb, hP⟩
        · simp only [ne_eq, hne, not_false_eq_true, if_true, true_iff, List.mem_cons]
          exact ⟨a, Or.inl rfl, Or.inr (Or.inr ⟨ov, cv, ho, hc, fun h => hne h.symm⟩)⟩
  · intro V _ attributes vals
    induction attributes with
    | nil => rfl
    | cons a rest ih =>
      simp only [change_requires_update]
      rcases h : vals a with _ | v
      · exact ih
      · simpa using ih

/-! ### Claim C8: the `'NONE'` sentinel short-circuits `delete` -/

/-- Claim C8: a delete event whose `PhysicalResourceId` is the sentinel
`"NONE"` is a no-op — the handler issues no stack-instance deletion and no
stack-set deletion. -/
theorem delete_none_noop (event : DeleteEvent)
    (h : event.PhysicalResourceId = "NONE") :
    delete_handler event = [] := by
  simp [delete_handler, h]

/-- Witness for C8: a concrete `"NONE"` event that does declare stack
instances still produces no calls. -/
theorem delete_none_noop_witness :
    delete_handler ⟨"NONE", some [⟨["acct"], ["region"], none⟩], none⟩ = [] :=
  delete_none_noop ⟨"NONE", some [⟨["acct"], ["region"], none⟩], none⟩ rfl

/-! ### Claim C9: `convert_ops_prefs` keeps only the five known keys -/

/-- Auxiliary induction for C9: key discipline of `convert_ops_prefs`. -/
theorem convert_ops_prefs_aux :
    ∀ (prefs : List (String × String)) (m : List (String × OpsVal)),
      convert_ops_prefs prefs = Except.ok m →
      (∀ k, k ∈ m.map Prod.fst → k ∈ allowed_ops_keys)
      ∧ (∀ k v, (k, v) ∈ prefs → k ∈ needs_conversion →
          ∃ n, pyInt v = some n ∧ (k, OpsVal.asInt n) ∈ m)
      ∧ (∀ v, ("RegionOrder", v) ∈ prefs → ("RegionOrder", OpsVal.raw v) ∈ m) := by
  intro prefs
  induction prefs with
  | nil =>
    intro m h
    simp only [convert_ops_prefs, Except.ok.injEq] at h
    subst h
    simp
  | cons p rest ih =>
    obtain ⟨key, value⟩ := p
    intro m h
    simp only [convert_ops_prefs] at h
    by_cases hk : key ∈ needs_conversion
    · rw [if_pos hk] at h
      rcases hv : pyInt value with _ | n <;> rw [hv] at h
      · exact absurd h (by simp)
      · rcases hr : convert_ops_prefs rest with e | m0 <;> rw [hr] at h
        · exact absurd h (by simp)
        · simp only [Except.ok.injEq] at h
          subst h
          obtain ⟨ih1, ih2, ih3⟩ := ih m0 hr
          refine ⟨?_, ?_, ?_⟩
          · intro k hkm
            simp only [List.map_cons, List.mem_cons] at hkm
            rcases hkm with rfl | hkm
            · exact List.mem_append_left _ hk
            · exact ih1 k hkm
          · intro k v hkv hkneeds
            simp only [List.mem_cons, Prod.mk.injEq] at hkv
            rcases hkv with ⟨rfl, rfl⟩ | hkv
            · exact ⟨n, hv, List.mem_cons_self _ _⟩
            · obtain ⟨n', hn', hm'⟩ := ih2 k v hkv hkneeds
              exact ⟨n', hn', List.mem_cons_of_mem _ hm'⟩
          · intro v hv1
            simp only [List.mem_cons, Prod.mk.injEq] at hv1
            rcases hv1 with ⟨rfl, rfl⟩ | hv1
            · exact absurd hk (by decide)
            · exact List.mem_cons_of_mem _ (ih3 v hv1)
    · rw [if_neg hk] at h
      by_cases hro : key = "RegionOrder"
      · rw [if_pos hro] at h
        rcases hr : convert_ops_prefs rest with e | m0 <;> rw [hr] at h
        · exact absurd h (by simp)
        · simp only [Except.ok.injEq] at h
          subst h
          subst hro
          obtain ⟨ih1, ih2, ih3⟩ := ih m0 hr
          refine ⟨?_, ?_, ?_⟩
          · intro k hkm
            simp only [List.map_cons, List.mem_cons] at hkm
            rcases hkm with rfl | hkm
            · decide
            · exact ih1 k hkm
          · intro k v hkv hkneeds
            simp only [List.mem_cons, Prod.mk.injEq] at hkv
            rcases hkv with ⟨rfl, rfl⟩ | hkv
            · exact absurd hkneeds (by decide)
            · obtain ⟨n', hn', hm'⟩ := ih2 k v hkv hkneeds
              exact ⟨n', hn', List.mem_cons_of_mem _ hm'⟩
          · intro v hv1
            simp only [List.mem_cons, Prod.mk.injEq] at hv1
            rcases hv1 with ⟨-, rfl⟩ | hv1
            · exact List.mem_cons_self _ _
            · exact List.mem_cons_of_mem _ (ih3 v hv1)
      · rw [if_neg hro] at h
        obtain ⟨ih1, ih2, ih3⟩ := ih m h
        refine ⟨ih1, ?_, ?_⟩
        · intro k v hkv hkneeds
          simp only [List.mem_cons, Prod.mk.injEq] at hkv
          rcases hkv with ⟨rfl, rfl⟩ | hkv
          · exact absurd hkneeds hk
          · exact ih2 k v hkv hkneeds
        · intro v hv1
          simp only [List.mem_cons, Prod.mk.injEq] at hv1
          rcases hv1 with ⟨h1, rfl⟩ | hv1
          · exact absurd h1.symm hro
          · exact ih3 v hv1

/-- Claim C9: a successfully converted operation-preferences map mentions only
the five known keys; the four numeric keys are converted to integers,
`RegionOrder` is passed through unchanged, and any other input key is silently
dropped rather than kept or rejected. -/
theorem convert_ops_prefs_keys (prefs : List (String × String))
    (m : List (String × OpsVal)) (h : convert_ops_prefs prefs = Except.ok m) :
    (∀ k, k ∈ m.map Prod.fst → k ∈ allowed_ops_keys)
    ∧ (∀ k v, (k, v) ∈ prefs → k ∈ needs_conversion →
        ∃ n, pyInt v = some n ∧ (k, OpsVal.asInt n) ∈ m)
    ∧ (∀ v, ("RegionOrder", v) ∈ prefs → ("RegionOrder", OpsVal.raw v) ∈ m)
    ∧ (∀ k v, (k, v) ∈ prefs → k ∉ allowed_ops_keys → k ∉ m.map Prod.fst) := by
  obtain ⟨h1, h2, h3⟩ := convert_ops_prefs_aux prefs m h
  exact ⟨h1, h2, h3, fun k v _ hna hmem => hna (h1 k hmem)⟩

/-- Witness for C9: on a concrete preferences map with one numeric key, a
`RegionOrder` key and one unknown key, the unknown key is dropped while
`RegionOrder` survives unchanged. -/
theorem convert_ops_prefs_keys_witness :
    ("RegionOrder", OpsVal.raw "us-east-1")
      ∈ [("FailureToleranceCount", OpsVal.asInt 5), ("RegionOrder", OpsVal.raw "us-east-1")] :=
  (convert_ops_prefs_keys
      [("FailureToleranceCount", "5"), ("RegionOrder", "us-east-1"), ("Bogus", "9")]
      [("FailureToleranceCount", OpsVal.asInt 5), ("RegionOrder", OpsVal.raw "us-east-1")]
      (by rfl)).2.2.1 "us-east-1" (by decide)

/-! ### Retry-loop lemmas (for claims C3 and C4) -/

/-- One-step unfolding of `retry_go` (the `fuel + 1` case). -/
theorem retry_go_succ (outcomes : Nat → ApiOutcome) (onStop : ApiOutcome → LoopResult)
    (onExhaust : Nat → LoopResult) (t fuel : Nat) :
    retry_go outcomes onStop onExhaust t (fuel + 1)
      = if isRetryable (outcomes t) = true then
          if t + 1 = retries then
            ⟨onExhaust (t + 1), t + 1, []⟩
          else
            ⟨(retry_go outcomes onStop onExhaust (t + 1) fuel).result,
             (retry_go outcomes onStop onExhaust (t + 1) fuel).calls,
             sleep_time :: (retry_go outcomes onStop onExhaust (t + 1) fuel).sleeps⟩
        else ⟨onStop (outcomes t), t + 1, []⟩ := rfl

/-- The loop when the current in-progress attempt still has budget left. -/
theorem retry_go_step (outcomes : Nat → ApiOutcome) (onStop : ApiOutcome → LoopResult)
    (onExhaust : Nat → LoopResult) (t fuel : Nat)
    (hr : isRetryable (outcomes t) = true) (he : ¬ t + 1 = retries) :
    retry_go outcomes onStop onExhaust t (fuel + 1)
      = ⟨(retry_go outcomes onStop onExhaust (t + 1) fuel).result,
         (retry_go outcomes onStop onExhaust (t + 1) fuel).calls,
         sleep_time :: (retry_go outcomes onStop onExhaust (t + 1) fuel).sleeps⟩ := by
  rw [retry_go_succ, if_pos hr, if_neg he]

/-- The loop when the current in-progress attempt exhausts the budget. -/
theorem retry_go_exhaust_step (outcomes : Nat → ApiOutcome)
    (onStop : ApiOutcome → LoopResult) (onExhaust : Nat → LoopResult) (t fuel : Nat)
    (hr : isRetryable (outcomes t) = true) (he : t + 1 = retries) :
    retry_go outcomes onStop onExhaust t (fuel + 1)
      = ⟨onExhaust (t + 1), t + 1, []⟩ := by
  rw [retry_go_succ, if_pos hr, if_pos he]

/-- The loop when the current attempt ends it with a non-retryable outcome. -/
theorem retry_go_stop_step (outcomes : Nat → ApiOutcome)
    (onStop : ApiOutcome → LoopResult) (onExhaust : Nat → LoopResult) (t fuel : Nat)
    (hr : isRetryable (outcomes t) = false) :
    retry_go outcomes onStop onExhaust t (fuel + 1)
      = ⟨onStop (outcomes t), t + 1, []⟩ := by
  rw [retry_go_succ, if_neg (by simp [hr])]

/-- When every budgeted attempt is in-progress, the loop runs to exhaustion:
`retries` calls, `onExhaust retries` as result, a sleep between attempts. -/
theorem retry_go_exhaust (outcomes : Nat → ApiOutcome) (onStop : ApiOutcome → LoopResult)
    (onExhaust : Nat → LoopResult)
    (h : ∀ i, i < retries → isRetryable (outcomes i) = true) :
    ∀ (fuel this_try : Nat), this_try + fuel = retries → 0 < fuel →
      retry_go outcomes onStop onExhaust this_try fuel
        = ⟨onExhaust retries, retries, List.replicate (fuel - 1) sleep_time⟩ := by
  intro fuel
  induction fuel with
  | zero => intro t _ h2; exact absurd h2 (by omega)
  | succ f ihf =>
    intro t ht _
    have hretr : isRetryable (outcomes t) = true := h t (by omega)
    by_cases he : t + 1 = retries
    · have hf0 : f = 0 := by omega
      subst hf0
      rw [retry_go_exhaust_step outcomes onStop onExhaust t 0 hretr he, he]
      simp
    · obtain ⟨f1, rfl⟩ : ∃ f1, f = f1 + 1 := ⟨f - 1, by omega⟩
      have hrec := ihf (t + 1) (by omega) (by omega)
      rw [retry_go_step outcomes onStop onExhaust t (f1 + 1) hretr he, hrec]
      simp [List.replicate_succ]

/-- The stopping attempt is always past the current attempt. -/
theorem stop_from_ge (outcomes : Nat → ApiOutcome) (t fuel : Nat)
    (h : t + fuel = retries) (h1 : 0 < fuel) :
    t + 1 ≤ stop_from outcomes t fuel := by
  unfold stop_from
  rcases hf : (List.range' t fuel).find? (fun i => ! isRetryable (outcomes i)) with _ | i
  · simp only [hf]
    omega
  · simp only [hf]
    have hmem := List.mem_of_find?_eq_some hf
    have := List.mem_range'_1.mp hmem
    omega

/-- `stop_from` when the current attempt stops the loop. -/
theorem stop_from_stop (outcomes : Nat → ApiOutcome) (t f : Nat)
    (hr : (! isRetryable (outcomes t)) = true) :
    stop_from outcomes t (f + 1) = t + 1 := by
  unfold stop_from
  rw [List.range'_succ]
  rw [show List.find? (fun i => ! isRetryable (outcomes i)) (t :: List.range' (t + 1) f)
        = some t from List.find?_cons_of_pos _ hr]

/-- `stop_from` when the current attempt is retried. -/
theorem stop_from_retry (outcomes : Nat → ApiOutcome) (t f : Nat)
    (hr : isRetryable (outcomes t) = true) :
    stop_from outcomes t (f + 1) = stop_from outcomes (t + 1) f := by
  unfold stop_from
  rw [List.range'_succ]
  rw [show List.find? (fun i => ! isRetryable (outcomes i)) (t :: List.range' (t + 1) f)
        = List.find? (fun i => ! isRetryable (outcomes i)) (List.range' (t + 1) f)
      from List.find?_cons_of_neg _ (by simp [hr])]

/-- Loop invariant for C4: the loop makes exactly `stop_from` calls and sleeps
`sleep_time` seconds between consecutive attempts. -/
theorem retry_go_calls (outcomes : Nat → ApiOutcome) (onStop : ApiOutcome → LoopResult)
    (onExhaust : Nat → LoopResult) :
    ∀ (fuel t : Nat), t + fuel = retries → 0 < fuel →
      (retry_go outcomes onStop onExhaust t fuel).calls = stop_from outcomes t fuel
      ∧ (retry_go outcomes onStop onExhaust t fuel).sleeps
          = List.replicate (stop_from outcomes t fuel - (t + 1)) sleep_time := by
  intro fuel
  induction fuel with
  | zero => intro t _ h2; exact absurd h2 (by omega)
  | succ f ihf =>
    intro t ht _
    by_cases hr : isRetryable (outcomes t) = true
    · by_cases he : t + 1 = retries
      · have hf0 : f = 0 := by omega
        subst hf0
        have hs : stop_from outcomes t 1 = t + 1 := by
          rw [stop_from_retry outcomes t 0 hr]
          unfold stop_from
          simp [he]
        rw [retry_go_exhaust_step outcomes onStop onExhaust t 0 hr he, hs]
        exact ⟨rfl, by simp⟩
      · have hf1 : 0 < f := by omega
        obtain ⟨ih1, ih2⟩ := ihf (t + 1) (by omega) hf1
        have hge := stop_from_ge outcomes (t + 1) f (by omega) hf1
        have hs := stop_from_retry outcomes t f hr
        rw [retry_go_step outcomes onStop onExhaust t f hr he, hs]
        refine ⟨ih1, ?_⟩
        rw [ih2]
        rw [show stop_from outcomes (t + 1) f - (t + 1)
              = (stop_from outcomes (t + 1) f - (t + 1 + 1)) + 1 from by omega,
          List.replicate_succ]
    · have hr' : isRetryable (outcomes t) = false := by
        revert hr; cases isRetryable (outcomes t) <;> simp
      have hs : stop_from outcomes t (f + 1) = t + 1 :=
        stop_from_stop outcomes t f (by simp [hr'])
      rw [retry_go_stop_step outcomes onStop onExhaust t f hr', hs]
      exact ⟨rfl, by simp⟩

/-! ### Claim C4: every wrapper's retry loop makes exactly the budgeted calls -/

/-- Claim C4: for every wrapper (`launch_stacks`, `update_stacks`,
`delete_stacks`, `update_stack_set`) and every outcome sequence, the loop
re-issues the call only on `OperationInProgressException`, makes exactly
`attempts_to_stop` underlying calls — one past the first non-retryable
outcome, capped at the budget of 20 — and sleeps a fixed 15 seconds between
consecutive attempts. -/
theorem retry_loop_call_count (outcomes : Nat → ApiOutcome) :
    (launch_stacks_run outcomes).calls = attempts_to_stop outcomes
    ∧ (update_stacks_loop outcomes).calls = attempts_to_stop outcomes
    ∧ (delete_stacks_run outcomes).calls = attempts_to_stop outcomes
    ∧ (update_stack_set_run outcomes).calls = attempts_to_stop outcomes
    ∧ (launch_stacks_run outcomes).sleeps
        = List.replicate (attempts_to_stop outcomes - 1) sleep_time
    ∧ (update_stacks_loop outcomes).sleeps
        = List.replicate (attempts_to_stop outcomes - 1) sleep_time
    ∧ (delete_stacks_run outcomes).sleeps
        = List.replicate (attempts_to_stop outcomes - 1) sleep_time
    ∧ (update_stack_set_run outcomes).sleeps
        = List.replicate (attempts_to_stop outcomes - 1) sleep_time
    ∧ sleep_time = 15 ∧ retries = 20 := by
  have h20 : (0 : Nat) + retries = retries := Nat.zero_add _
  have hpos : 0 < retries := by decide
  have hl := retry_go_calls outcomes launch_stop launch_exhaust retries 0 h20 hpos
  have hu := retry_go_calls outcomes update_stop update_exhaust retries 0 h20 hpos
  have hd := retry_go_calls outcomes delete_stop delete_exhaust retries 0 h20 hpos
  have hx := retry_go_calls outcomes update_stack_set_stop update_stack_set_exhaust
    retries 0 h20 hpos
  have ha : attempts_to_stop outcomes = stop_from outcomes 0 retries := by
    unfold attempts_to_stop stop_from
    rw [List.range_eq_range' retries]
  unfold launch_stacks_run update_stacks_loop delete_stacks_run update_stack_set_run
  rw [ha]
  exact ⟨hl.1, hu.1, hd.1, hx.1, hl.2, hu.2, hd.2, hx.2, rfl, rfl⟩

/-! ### Claim C3 (corrected): what happens at retry exhaustion -/

/-- Counterexample to claim C3 as stated: on an outcome sequence that is
in-progress on every attempt, `launch_stacks` (and likewise `update_stacks`)
does not raise at exhaustion — it returns the failure string, exactly as
`delete_stacks` does. -/
theorem retry_exhaustion_counterexample :
    (launch_stacks_run (fun _ => ApiOutcome.clientError "OperationInProgressException")).result
      = LoopResult.returnedString "Failed to launch stacks after 20 tries"
    ∧ (launch_stacks_run
        (fun _ => ApiOutcome.clientError "OperationInProgressException")).result.isRaised
      = false
    ∧ (update_stacks_loop
        (fun _ => ApiOutcome.clientError "OperationInProgressException")).result.isRaised
      = false := by
  refine ⟨by decide, by decide, by decide⟩

/-- Claim C3 (amended): when the retry budget of 20 attempts is exhausted by
repeated in-progress errors, all three stack-instance wrappers
(`launch_stacks`, `update_stacks`, `delete_stacks`) report the failure as a
returned string rather than raising; only the stack-set-level
`update_stack_set` raises. -/
theorem retry_exhaustion_policy (outcomes : Nat → ApiOutcome)
    (h : ∀ i, i < retries → isRetryable (outcomes i) = true) :
    (launch_stacks_run outcomes).result
      = LoopResult.returnedString "Failed to launch stacks after 20 tries"
    ∧ (update_stacks_loop outcomes).result
      = LoopResult.returnedString "Failed to update stacks after 20 tries"
    ∧ (delete_stacks_run outcomes).result
      = LoopResult.returnedString "Failed to delete stacks after 20 tries"
    ∧ (launch_stacks_run outcomes).result.isRaised = false
    ∧ (update_stacks_loop outcomes).result.isRaised = false
    ∧ (delete_stacks_run outcomes).result.isRaised = false
    ∧ (update_stack_set_run outcomes).result
      = LoopResult.raisedException "Failed to delete StackSet after 20 tries."
    ∧ (update_stack_set_run outcomes).result.isRaised = true := by
  have h20 : (0 : Nat) + retries = retries := Nat.zero_add _
  have hpos : 0 < retries := by decide
  have hl := retry_go_exhaust outcomes launch_stop launch_exhaust h retries 0 h20 hpos
  have hu := retry_go_exhaust outcomes update_stop update_exhaust h retries 0 h20 hpos
  have hd := retry_go_exhaust outcomes delete_stop delete_exhaust h retries 0 h20 hpos
  have hx := retry_go_exhaust outcomes update_stack_set_stop update_stack_set_exhaust
    h retries 0 h20 hpos
  unfold launch_stacks_run update_stacks_loop delete_stacks_run update_stack_set_run
  rw [hl, hu, hd, hx]
  refine ⟨by decide, by decide, by decide, by decide, by decide, by decide, by decide, by decide⟩

/-- Witness for the amended C3, at the concrete always-in-progress sequence. -/
theorem retry_exhaustion_policy_witness :
    (delete_stacks_run (fun _ => ApiOutcome.clientError "OperationInProgressException")).result
      = LoopResult.returnedString "Failed to delete stacks after 20 tries"
    ∧ (update_stack_set_run
        (fun _ => ApiOutcome.clientError "OperationInProgressException")).result
      = LoopResult.raisedException "Failed to delete StackSet after 20 tries." := by
  have h := retry_exhaustion_policy
    (fun _ => ApiOutcome.clientError "OperationInProgressException")
    (fun _ _ => rfl)
  exact ⟨h.2.2.1, h.2.2.2.2.2.2.1⟩

/-! ### Claim C10: `update_stacks` demands exactly one colon in its identifier -/

/-- `pySplit` never returns the empty list of parts. -/
theorem pySplit_ne_nil (sep : Char) : ∀ s : List Char, pySplit sep s ≠ [] := by
  intro s
  induction s with
  | nil => simp [pySplit]
  | cons c rest ih =>
    by_cases hc : c = sep
    · simp [pySplit, hc]
    · rcases hr : pySplit sep rest with _ | ⟨h0, t0⟩
      · exact absurd hr ih
      · simp [pySplit, hc, hr]

/-- `pySplit` returns one more part than there are separators. -/
theorem pySplit_length (sep : Char) :
    ∀ s : List Char, (pySplit sep s).length = s.count sep + 1 := by
  intro s
  induction s with
  | nil => simp [pySplit]
  | cons c rest ih =>
    by_cases hc : c = sep
    · subst hc
      simp [pySplit, List.count_cons, ih]
    · rcases hr : pySplit sep rest with _ | ⟨h0, t0⟩
      · exact absurd hr (pySplit_ne_nil sep rest)
      · have : (pySplit sep (c :: rest)).length = (pySplit sep rest).length := by
          simp [pySplit, hc, hr]
        rw [this, ih, List.count_cons]
        simp [hc]

/-- A separator-free string splits to a single part, itself. -/
theorem pySplit_no_sep (sep : Char) :
    ∀ s : List Char, sep ∉ s → pySplit sep s = [s] := by
  intro s
  induction s with
  | nil => intro _; rfl
  | cons c rest ih =>
    intro hs
    have hc : ¬ c = sep := fun h => hs (h ▸ List.mem_cons_self c rest)
    have hrest : sep ∉ rest := fun h => hs (List.mem_cons_of_mem c h)
    simp [pySplit, hc, ih hrest]

/-- Splitting `name ++ ':' ++ uid` with colon-free `name` and `uid` yields
exactly the two parts. -/
theorem pySplit_single_sep (sep : Char) :
    ∀ (name uid : List Char), sep ∉ name → sep ∉ uid →
      pySplit sep (name ++ sep :: uid) = [name, uid] := by
  intro name
  induction name with
  | nil =>
    intro uid _ hu
    simp [pySplit, pySplit_no_sep sep uid hu]
  | cons c rest ih =>
    intro uid hn hu
    have hc : ¬ c = sep := fun h => hn (h ▸ List.mem_cons_self c rest)
    have hrest : sep ∉ rest := fun h => hn (List.mem_cons_of_mem c h)
    simp [pySplit, hc, ih uid hrest hu]

/-- Claim C10: `update_stacks` unconditionally unpacks its identifier's split
on `':'` into two names before any API call.  With zero or several colons the
unpacking fails before the service is contacted (zero calls are made); with
exactly one colon, only the part before the colon is sent to the API. -/
theorem update_stacks_split_colon (set_name : List Char) (outcomes : Nat → ApiOutcome) :
    (set_name.count ':' ≠ 1 →
      (∃ e, update_stacks_run set_name outcomes = Except.error e)
      ∧ update_stacks_calls (update_stacks_run set_name outcomes) = 0)
    ∧ (∀ name uid, ':' ∉ name → ':' ∉ uid → set_name = name ++ ':' :: uid →
        update_stacks_run set_name outcomes
          = Except.ok (update_stacks_loop outcomes, name)) := by
  constructor
  · intro hcount
    have hlen : (pySplit ':' set_name).length ≠ 2 := by
      rw [pySplit_length]
      omega
    unfold update_stacks_run update_stacks_calls
    rcases hs : pySplit ':' set_name with _ | ⟨a, _ | ⟨b, _ | ⟨c, t⟩⟩⟩
    · exact ⟨⟨_, rfl⟩, rfl⟩
    · exact ⟨⟨_, rfl⟩, rfl⟩
    · rw [hs] at hlen; simp at hlen
    · exact ⟨⟨_, rfl⟩, rfl⟩
  · intro name uid hn hu hshape
    subst hshape
    unfold update_stacks_run
    rw [pySplit_single_sep ':' name uid hn hu]

/-- Witness for C10: a two-part identifier is accepted and truncated to the
part before the colon. -/
theorem update_stacks_split_colon_witness :
    update_stacks_run ['n', ':', 'u'] (fun _ => ApiOutcome.success 200)
      = Except.ok (update_stacks_loop (fun _ => ApiOutcome.success 200), ['n']) :=
  (update_stacks_split_colon ['n', ':', 'u'] (fun _ => ApiOutcome.success 200)).2
    ['n'] ['u'] (by decide) (by decide) rfl

/-! ### Claim C5: `flatten_stacks` raises exactly on duplicate pairs -/

/-- `alHasKey` decides membership in the key projection. -/
theorem alHasKey_mem {α β : Type} [DecidableEq α] (l : List (α × β)) (k : α) :
    alHasKey l k = true ↔ k ∈ l.map Prod.fst := by
  induction l with
  | nil => simp [alHasKey, alLookup]
  | cons p rest ih =>
    obtain ⟨a, b⟩ := p
    by_cases ha : a = k
    · subst ha
      simp [alHasKey, alLookup]
    · simp only [alHasKey, alLookup, if_neg ha, List.map_cons, List.mem_cons]
      rw [← alHasKey]
      rw [ih]
      constructor
      · exact Or.inr
      · rintro (h | h)
        · exact absurd h.symm ha
        · exact h

/-- Projecting the keys back out of a key-annotation map. -/
theorem map_fst_pair {α β : Type} (l : List α) (g : α → β) :
    (l.map (fun k => (k, g k))).map Prod.fst = l := by
  induction l with
  | nil => rfl
  | cons a t ih => simp [ih]

/-- Splitting a freshness obligation over an appended key list. -/
theorem fresh_split (flat es : FlatMap) (xs ys : List Key)
    (hes : es.map Prod.fst = xs) :
    Fresh flat (xs ++ ys) ↔ Fresh flat xs ∧ Fresh (flat ++ es) ys := by
  subst hes
  unfold Fresh
  rw [List.nodup_append]
  simp only [List.mem_append, List.map_append, List.disjoint_left]
  constructor
  · rintro ⟨⟨hx, hy, hdisj⟩, hmem⟩
    exact ⟨⟨hx, fun k hk => hmem k (Or.inl hk)⟩,
      ⟨hy, fun k hk hmem2 => by
        rcases hmem2 with h | h
        · exact hmem k (Or.inr hk) h
        · exact hdisj h hk⟩⟩
  · rintro ⟨⟨hx, hmemx⟩, hy, hmemy⟩
    refine ⟨⟨hx, hy, fun a ha hay => ?_⟩, fun k hk => ?_⟩
    · exact hmemy a hay (Or.inr ha)
    · rcases hk with hk | hk
      · exact hmemx k hk
      · exact fun hin => hmemy k hk (Or.inl hin)

/-- Behaviour of the inner region loop of `flatten_stacks`: it succeeds,
appending one entry per region, exactly when the produced keys are fresh. -/
theorem flatten_regions_spec (account : Account) (ov : Ov) :
    ∀ (regions : List Region) (flat : FlatMap),
      (Fresh flat (regions.map (fun r => (account, r))) →
        flatten_regions account ov flat regions
          = Except.ok (flat ++ regions.map (fun r => ((account, r), ov))))
      ∧ (¬ Fresh flat (regions.map (fun r => (account, r))) →
          ∃ e, flatten_regions account ov flat regions = Except.error e) := by
  intro regions
  induction regions with
  | nil =>
    intro flat
    constructor
    · intro _
      simp [flatten_regions]
    · intro hnf
      exact absurd ⟨List.nodup_nil, by simp⟩ hnf
  | cons r rest ih =>
    intro flat
    by_cases hk : alHasKey flat (account, r) = true
    · have hmem : (account, r) ∈ flat.map Prod.fst := (alHasKey_mem flat _).mp hk
      constructor
      · intro hf
        exact absurd hmem (hf.2 (account, r) (by simp))
      · intro _
        exact ⟨account ++ " / " ++ r ++ " is defined multiple times",
          by simp [flatten_regions, hk]⟩
    · have hk' : alHasKey flat (account, r) = false := by
        revert hk; cases alHasKey flat (account, r) <;> simp
      have hnm : (account, r) ∉ flat.map Prod.fst :=
        fun hm => hk ((alHasKey_mem flat _).mpr hm)
      have hstep : flatten_regions account ov flat (r :: rest)
          = flatten_regions account ov (flat ++ [((account, r), ov)]) rest := by
        simp [flatten_regions, hk']
      have hiff : Fresh flat ((r :: rest).map (fun r => (account, r)))
          ↔ Fresh (flat ++ [((account, r), ov)]) (rest.map (fun r => (account, r))) := by
        unfold Fresh
        simp only [List.map_cons, List.nodup_cons, List.mem_cons, List.map_append,
          List.mem_append, List.mem_singleton]
        constructor
        · rintro ⟨⟨hnotin, hnd⟩, hmem⟩
          refine ⟨hnd, fun k hk1 => ?_⟩
          rintro (hk2 | hk2)
          · exact hmem k (Or.inr hk1) hk2
          · simp only [List.map_cons, List.map_nil, List.mem_singleton,
              List.not_mem_nil, or_false] at hk2
            exact hnotin (hk2 ▸ hk1)
        · rintro ⟨hnd, hmem⟩
          refine ⟨⟨fun hin => ?_, hnd⟩, ?_⟩
          · exact hmem (account, r) hin (Or.inr (by simp))
          · rintro k (rfl | hk1)
            · exact hnm
            · exact fun hin => hmem k hk1 (Or.inl hin)
      constructor
      · intro hf
        rw [hstep, (ih (flat ++ [((account, r), ov)])).1 (hiff.mp hf)]
        simp [List.append_assoc]
      · intro hnf
        rw [hstep]
        exact (ih _).2 (fun hf2 => hnf (hiff.mpr hf2))

/-- Behaviour of the account loop of `flatten_stacks`. -/
theorem flatten_accounts_spec (regions : List Region) (ov : Ov) :
    ∀ (accounts : List Account) (flat : FlatMap),
      (Fresh flat (pairs_of accounts regions) →
        flatten_accounts regions ov flat accounts
          = Except.ok (flat ++ (pairs_of accounts regions).map (fun k => (k, ov))))
      ∧ (¬ Fresh flat (pairs_of accounts regions) →
          ∃ e, flatten_accounts regions ov flat accounts = Except.error e) := by
  intro accounts
  induction accounts with
  | nil =>
    intro flat
    constructor
    · intro _
      simp [flatten_accounts, pairs_of]
    · intro hnf
      exact absurd ⟨List.nodup_nil, by simp [pairs_of]⟩ hnf
  | cons a rest ih =>
    intro flat
    have hes : (regions.map (fun r => (a, r))).map (fun k => (k, ov))
        = regions.map (fun r => ((a, r), ov)) := by
      simp [List.map_map]
    have hsplit := fresh_split flat (regions.map (fun r => ((a, r), ov)))
      (regions.map (fun r => (a, r))) (pairs_of rest regions) (by rw [← hes]; exact map_fst_pair _ _)
    by_cases hf1 : Fresh flat (regions.map (fun r => (a, r)))
    · have hok := (flatten_regions_spec a ov regions flat).1 hf1
      have hstep : flatten_accounts regions ov flat (a :: rest)
          = flatten_accounts regions ov (flat ++ regions.map (fun r => ((a, r), ov))) rest := by
        simp [flatten_accounts, hok]
      constructor
      · intro hfr
        have hf2 : Fresh (flat ++ regions.map (fun r => ((a, r), ov)))
            (pairs_of rest regions) := (hsplit.mp hfr).2
        rw [hstep, (ih _).1 hf2]
        simp [pairs_of, List.map_append, List.append_assoc, hes]
      · intro hnf
        have hf2 : ¬ Fresh (flat ++ regions.map (fun r => ((a, r), ov)))
            (pairs_of rest regions) :=
          fun hcontra => hnf (hsplit.mpr ⟨hf1, hcontra⟩)
        rw [hstep]
        exact (ih _).2 hf2
    · obtain ⟨e, he⟩ := (flatten_regions_spec a ov regions flat).2 hf1
      have hstep : flatten_accounts regions ov flat (a :: rest) = Except.error e := by
        simp [flatten_accounts, he]
      constructor
      · intro hfr
        exact absurd (hsplit.mp hfr).1 hf1
      · intro _
        exact ⟨e, hstep⟩

/-- Behaviour of the outer spec loop of `flatten_stacks`. -/
theorem flatten_go_spec :
    ∀ (specs : List StackInstanceSpec) (flat : FlatMap),
      (Fresh flat (all_pairs specs) →
        flatten_go flat specs = Except.ok (flat ++ all_entries specs))
      ∧ (¬ Fresh flat (all_pairs specs) →
          ∃ e, flatten_go flat specs = Except.error e) := by
  intro specs
  induction specs with
  | nil =>
    intro flat
    constructor
    · intro _
      simp [flatten_go, all_entries]
    · intro hnf
      exact absurd ⟨List.nodup_nil, by simp [all_pairs]⟩ hnf
  | cons s rest ih =>
    intro flat
    have hsplit := fresh_split flat
      ((pairs_of s.Accounts s.Regions).map (fun k => (k, spec_overrides s)))
      (pairs_of s.Accounts s.Regions) (all_pairs rest) (map_fst_pair _ _)
    by_cases hf1 : Fresh flat (pairs_of s.Accounts s.Regions)
    · have hok := (flatten_accounts_spec s.Regions (spec_overrides s) s.Accounts flat).1 hf1
      have hstep : flatten_go flat (s :: rest)
          = flatten_go
              (flat ++ (pairs_of s.Accounts s.Regions).map (fun k => (k, spec_overrides s)))
              rest := by
        simp [flatten_go, hok]
      constructor
      · intro hfr
        have hf2 := (hsplit.mp hfr).2
        rw [hstep, (ih _).1 hf2]
        simp [all_entries, List.append_assoc]
      · intro hnf
        have hf2 := fun hcontra => hnf (hsplit.mpr ⟨hf1, hcontra⟩)
        rw [hstep]
        exact (ih _).2 hf2
    · obtain ⟨e, he⟩ := (flatten_accounts_spec s.Regions (spec_overrides s) s.Accounts flat).2 hf1
      have hstep : flatten_go flat (s :: rest) = Except.error e := by
        simp [flatten_go, he]
      constructor
      · intro hfr
        exact absurd (hsplit.mp hfr).1 hf1
      · intro _
        exact ⟨e, hstep⟩

/-- Claim C5: `flatten_stacks` raises if and only if some `(account, region)`
pair is produced more than once across the specifications; otherwise it
returns the map with one entry per produced pair, each carrying its
specification's overrides. -/
theorem flatten_stacks_duplicates (specs : List StackInstanceSpec) :
    ((∃ e, flatten_stacks specs = Except.error e) ↔ ¬ (all_pairs specs).Nodup)
    ∧ ((all_pairs specs).Nodup → flatten_stacks specs = Except.ok (all_entries specs)) := by
  have hfr : Fresh [] (all_pairs specs) ↔ (all_pairs specs).Nodup := by
    unfold Fresh
    simp
  have hok : (all_pairs specs).Nodup → flatten_stacks specs = Except.ok (all_entries specs) := by
    intro hnd
    have := (flatten_go_spec specs []).1 (hfr.mpr hnd)
    simpa [flatten_stacks] using this
  refine ⟨⟨?_, ?_⟩, hok⟩
  · rintro ⟨e, he⟩ hnd
    rw [hok hnd] at he
    exact absurd he (by simp)
  · intro hnd
    exact (flatten_go_spec specs []).2 (fun hf => hnd (hfr.mp hf))

/-- Witness for C5: a duplicate-free pair of specs flattens to its entries. -/
theorem flatten_stacks_duplicates_witness :
    flatten_stacks [⟨["a"], ["r1", "r2"], some [("p", "1")]⟩, ⟨["b"], ["r1"], none⟩]
      = Except.ok (all_entries [⟨["a"], ["r1", "r2"], some [("p", "1")]⟩, ⟨["b"], ["r1"], none⟩]) :=
  (flatten_stacks_duplicates
    [⟨["a"], ["r1", "r2"], some [("p", "1")]⟩, ⟨["b"], ["r1"], none⟩]).2 (by decide)

/-! ### Claim C1: aggregation round-trips to the flat map

The round-trip is proved at the multiset level: the flat `(key, overrides)`
entries obtained by expanding the aggregated instances are a permutation of
the restriction of the flat map to the aggregated key list. -/

/-- `expand_groups` distributes over append. -/
theorem expand_groups_append :
    ∀ l1 l2 : Grouped, expand_groups (l1 ++ l2) = expand_groups l1 ++ expand_groups l2 := by
  intro l1 l2
  induction l1 with
  | nil => rfl
  | cons p t ih =>
    obtain ⟨a, g⟩ := p
    simp [expand_groups, ih, List.append_assoc]

/-- `expand_accounts` distributes over append. -/
theorem expand_accounts_append (regions : List Region) (ov : Ov) :
    ∀ l1 l2 : List Account,
      expand_accounts regions ov (l1 ++ l2)
        = expand_accounts regions ov l1 ++ expand_accounts regions ov l2 := by
  intro l1 l2
  induction l1 with
  | nil => rfl
  | cons a t ih =>
    simp [expand_accounts, ih, List.append_assoc]

/-- Appending one region to an account's group adds exactly one expanded
entry, carrying the group's overrides. -/
theorem expand_alModify (a : Account) (r : Region) :
    ∀ (grouped : Grouped) (g : AccountGroup), alLookup grouped a = some g →
      (↑(expand_groups
          (alModify grouped a (fun g0 => ⟨g0.regions ++ [r], g0.overrides⟩)))
        : Multiset (Key × Ov))
        = ↑(expand_groups grouped) + {((a, r), g.overrides)} := by
  intro grouped
  induction grouped with
  | nil =>
    intro g h
    simp [alLookup] at h
  | cons p rest ih =>
    obtain ⟨a1, g1⟩ := p
    intro g h
    by_cases ha : a1 = a
    · subst ha
      have hg : g1 = g := by simpa [alLookup] using h
      subst hg
      simp only [alModify, if_pos rfl, expand_groups, List.map_append, List.map_cons,
        List.map_nil]
      simp only [← Multiset.cons_coe, ← Multiset.coe_add, ← Multiset.singleton_add,
        Multiset.coe_nil]
      abel
    · have hrest : alLookup rest a = some g := by simpa [alLookup, ha] using h
      simp only [alModify, if_neg ha, expand_groups]
      simp only [← Multiset.coe_add]
      rw [ih g hrest]
      abel

/-- Invariant of `group_by_account`'s loop: on success, the expansion of the
grouped accounts grows by exactly the processed keys with their overrides. -/
theorem group_go_spec (flat : Key → Ov) :
    ∀ (keys : List Key) (grouped res : Grouped),
      group_go flat keys grouped = Except.ok res →
      (↑(expand_groups res) : Multiset (Key × Ov))
        = ↑(expand_groups grouped) + ↑(keys.map (fun k => (k, flat k))) := by
  intro keys
  induction keys with
  | nil =>
    intro grouped res h
    simp only [group_go, Except.ok.injEq] at h
    subst h
    simp
  | cons k rest ih =>
    obtain ⟨account, region⟩ := k
    intro grouped res h
    rcases hl : alLookup grouped account with _ | g
    · have hstep : group_go flat ((account, region) :: rest) grouped
          = group_go flat rest
              (grouped ++ [(account, ⟨[region], flat (account, region)⟩)]) := by
        simp [group_go, hl]
      rw [hstep] at h
      rw [ih _ res h, expand_groups_append]
      simp only [expand_groups, List.map_cons, List.map_nil, List.append_nil]
      simp only [← Multiset.cons_coe, ← Multiset.coe_add, ← Multiset.singleton_add,
        Multiset.coe_nil]
      abel
    · by_cases hov : flat (account, region) = g.overrides
      · have hstep : group_go flat ((account, region) :: rest) grouped
            = group_go flat rest
                (alModify grouped account (fun g0 => ⟨g0.regions ++ [region], g0.overrides⟩)) := by
          simp [group_go, hl, hov]
        rw [hstep] at h
        rw [ih _ res h, expand_alModify account region grouped g hl, ← hov]
        simp only [List.map_cons]
        simp only [← Multiset.cons_coe, ← Multiset.coe_add, ← Multiset.singleton_add,
          Multiset.coe_nil]
        abel
      · have : group_go flat ((account, region) :: rest) grouped
            = Except.error ("The overrides didn't match account group for "
                ++ account ++ "/" ++ region) := by
          simp [group_go, hl, hov]
        rw [this] at h
        exact absurd h (by simp)

/-- Expanding the accounts pulled out of a filtered group list reproduces the
expansion of those grouped entries (their values all equal `values`). -/
theorem expand_filter_map (values : AccountGroup) :
    ∀ l : Grouped,
      expand_accounts values.regions values.overrides
          ((l.filter (fun q => decide (q.2 = values))).map Prod.fst)
        = expand_groups (l.filter (fun q => decide (q.2 = values))) := by
  intro l
  induction l with
  | nil => rfl
  | cons q t ih =>
    obtain ⟨a, g⟩ := q
    by_cases hq : g = values
    · subst hq
      rw [List.filter_cons, if_pos (by simp)]
      simp only [List.map_cons, expand_accounts, expand_groups, ih]
    · rw [List.filter_cons, if_neg (by simp [hq])]
      exact ih

/-- The two halves of a filter partition expand to the whole. -/
theorem expand_groups_filter (p : Account × AccountGroup → Bool) :
    ∀ l : Grouped,
      (↑(expand_groups (l.filter p)) : Multiset (Key × Ov))
        + ↑(expand_groups (l.filter (fun x => ! p x)))
        = ↑(expand_groups l) := by
  intro l
  induction l with
  | nil => simp [expand_groups]
  | cons q t ih =>
    obtain ⟨a, g⟩ := q
    by_cases hq : p (a, g) = true
    · rw [List.filter_cons, if_pos hq, List.filter_cons,
        if_neg (show ¬ (! p (a, g)) = true by simp [hq])]
      simp only [expand_groups]
      simp only [← Multiset.coe_add, ← Multiset.cons_coe, ← Multiset.singleton_add,
        Multiset.coe_nil]
      rw [← ih]
      abel
    · have hq1 : (! p (a, g)) = true := by
        revert hq; cases p (a, g) <;> simp
      rw [List.filter_cons, if_neg hq, List.filter_cons, if_pos hq1]
      simp only [expand_groups]
      simp only [← Multiset.coe_add, ← Multiset.cons_coe, ← Multiset.singleton_add,
        Multiset.coe_nil]
      rw [← ih]
      abel

/-- Splitting a non-empty group list into its last entry (the `popitem()`
source) and the rest. -/
theorem expand_groups_split_last (l : Grouped) (h : l ≠ []) :
    (↑(expand_groups l) : Multiset (Key × Ov))
      = ↑(expand_groups l.dropLast) + ↑(expand_groups [l.getLast h]) := by
  conv_lhs => rw [← List.dropLast_append_getLast h]
  rw [expand_groups_append]
  rw [← Multiset.coe_add]

/-- Invariant of the `while accounts.keys()` loop: expansion is preserved by
aggregation, as a multiset of flat entries. -/
theorem aggregate_go_spec :
    ∀ (fuel : Nat) (l : Grouped), l.length ≤ fuel →
      (↑(expand_instances (aggregate_go fuel l)) : Multiset (Key × Ov))
        = ↑(expand_groups l) := by
  intro fuel
  induction fuel with
  | zero =>
    intro l hl
    have hnil : l = [] := List.eq_nil_of_length_eq_zero (by omega)
    subst hnil
    rfl
  | succ f ihf =>
    intro l hl
    rcases l with _ | ⟨p, rest0⟩
    · rfl
    · have hne : (p :: rest0) ≠ [] := List.cons_ne_nil p rest0
      rcases hsrc : (p :: rest0).getLast hne with ⟨sa, sv⟩
      have hstep : aggregate_go (f + 1) (p :: rest0)
          = { accounts :=
                (((p :: rest0).dropLast.filter (fun q => decide (q.2 = sv))).map Prod.fst)
                  ++ [sa],
              regions := sv.regions,
              overrides := sv.overrides }
            :: aggregate_go f
                ((p :: rest0).dropLast.filter (fun q => ! decide (q.2 = sv))) := by
        simp only [aggregate_go, hsrc]
      have hlen : ((p :: rest0).dropLast.filter
          (fun q => ! decide (q.2 = sv))).length ≤ f := by
        have h1 := List.length_filter_le (fun q => ! decide (q.2 = sv))
          ((p :: rest0).dropLast)
        have h2 : (p :: rest0).dropLast.length = rest0.length := by
          rw [List.length_dropLast]
          simp
        simp only [List.length_cons] at hl
        omega
      have hrec := ihf _ hlen
      rw [hstep]
      simp only [expand_instances]
      rw [expand_accounts_append, expand_filter_map sv ((p :: rest0).dropLast)]
      rw [expand_groups_split_last (p :: rest0) hne, hsrc]
      rw [← expand_groups_filter (fun q => decide (q.2 = sv)) ((p :: rest0).dropLast)]
      simp only [← Multiset.coe_add]
      rw [hrec]
      have hsingle : expand_accounts sv.regions sv.overrides [sa]
          = expand_groups [(sa, sv)] := rfl
      rw [hsingle]
      abel

/-- Claim C1: whenever `aggregate_instances` succeeds on a key list drawn from
a flat instance map, expanding every returned group back into its
per-`(account, region)` pairs — each pair carrying the group's overrides —
reproduces exactly the restriction of the flat map to that key list, as a
permutation (each input pair appears exactly once, with its original
overrides). -/
theorem aggregate_instances_roundtrip (account_list : List Key) (flat_stacks : Key → Ov)
    (insts : List AggInstance)
    (h : aggregate_instances account_list flat_stacks = Except.ok insts) :
    (expand_instances insts).Perm
      (account_list.map (fun k => (k, flat_stacks k))) := by
  rw [← Multiset.coe_eq_coe]
  unfold aggregate_instances at h
  rcases hg : group_by_account account_list flat_stacks with e | accounts
  · rw [hg] at h
    exact absurd h (by simp)
  · rw [hg] at h
    simp only [Except.ok.injEq] at h
    subst h
    rw [aggregate_go_spec accounts.length accounts le_rfl]
    have := group_go_spec flat_stacks account_list [] accounts hg
    rw [this]
    simp [expand_groups]

/-- Witness for C1 at a concrete two-account flat map: the two keys collapse
into one aggregated group whose expansion is a permutation of the input. -/
theorem aggregate_instances_roundtrip_witness :
    (expand_instances [⟨["a", "b"], ["r1"], []⟩]).Perm
      ([("a", "r1"), ("b", "r1")].map (fun k => (k, ([] : Ov)))) :=
  aggregate_instances_roundtrip [("a", "r1"), ("b", "r1")] (fun _ => [])
    [⟨["a", "b"], ["r1"], []⟩] (by rfl)

/-! ### Claim C6: conflicting overrides for one account make aggregation raise -/

/-- Lookup after an in-place modify: only the modified key's value changes. -/
theorem alLookup_alModify {α β : Type} [DecidableEq α] (f : β → β) :
    ∀ (l : List (α × β)) (k k0 : α),
      alLookup (alModify l k f) k0
        = if k = k0 then (alLookup l k0).map f else alLookup l k0 := by
  intro l
  induction l with
  | nil =>
    intro k k0
    simp only [alModify, alLookup]
    split <;> rfl
  | cons p rest ih =>
    obtain ⟨k1, v⟩ := p
    intro k k0
    by_cases hk1 : k1 = k
    · subst hk1
      rw [alModify, if_pos rfl]
      by_cases hk0 : k1 = k0
      · subst hk0
        simp [alLookup]
      · simp [alLookup, hk0]
    · rw [alModify, if_neg hk1]
      by_cases hk0 : k1 = k0
      · subst hk0
        have hkk0 : ¬ k = k1 := fun h => hk1 h.symm
        simp [alLookup, if_neg hkk0]
      · simp only [alLookup, if_neg hk0]
        exact ih k k0

/-- Lookup hits in the left part of an append when the key is there. -/
theorem alLookup_append_left {α β : Type} [DecidableEq α] :
    ∀ (l1 l2 : List (α × β)) (k : α) (v : β),
      alLookup l1 k = some v → alLookup (l1 ++ l2) k = some v := by
  intro l1
  induction l1 with
  | nil => intro l2 k v h; simp [alLookup] at h
  | cons p rest ih =>
    obtain ⟨k1, v1⟩ := p
    intro l2 k v h
    by_cases hk1 : k1 = k
    · simp only [alLookup, if_pos hk1] at h ⊢
      exact h
    · simp only [alLookup, if_neg hk1] at h ⊢
      exact ih l2 k v h

/-- Lookup falls through to the right part when the key is absent left. -/
theorem alLookup_append_right {α β : Type} [DecidableEq α] :
    ∀ (l1 l2 : List (α × β)) (k : α),
      alLookup l1 k = none → alLookup (l1 ++ l2) k = alLookup l2 k := by
  intro l1
  induction l1 with
  | nil => intro l2 k _; rfl
  | cons p rest ih =>
    obtain ⟨k1, v1⟩ := p
    intro l2 k h
    by_cases hk1 : k1 = k
    · simp [alLookup, if_pos hk1] at h
    · simp only [alLookup, if_neg hk1] at h ⊢
      exact ih l2 k h

/-- If the key list maps one account to two regions with different overrides
(or conflicts with the overrides already grouped for that account), the
`group_by_account` loop raises. -/
theorem group_go_error (flat : Key → Ov) (a : Account) :
    ∀ (keys : List Key) (grouped : Grouped),
      ((alLookup grouped a = none
          ∧ ∃ r1 r2, (a, r1) ∈ keys ∧ (a, r2) ∈ keys ∧ flat (a, r1) ≠ flat (a, r2))
        ∨ (∃ g, alLookup grouped a = some g
            ∧ ∃ r, (a, r) ∈ keys ∧ flat (a, r) ≠ g.overrides)) →
      ∃ e, group_go flat keys grouped = Except.error e := by
  intro keys
  induction keys with
  | nil =>
    intro grouped h
    rcases h with ⟨_, r1, r2, h1, _⟩ | ⟨g, _, r, h1, _⟩ <;> simp at h1
  | cons k rest ih =>
    obtain ⟨b, s⟩ := k
    intro grouped h
    rcases hb : alLookup grouped b with _ | gb
    · have hstep : group_go flat ((b, s) :: rest) grouped
          = group_go flat rest (grouped ++ [(b, ⟨[s], flat (b, s)⟩)]) := by
        simp [group_go, hb]
      rw [hstep]
      apply ih
      rcases h with ⟨hnone, r1, r2, h1, h2, hne⟩ | ⟨g, hsome, r, h1, hne⟩
      · by_cases hab : a = b
        · subst hab
          have hl2 : alLookup (grouped ++ [(a, ⟨[s], flat (a, s)⟩)]) a
              = some ⟨[s], flat (a, s)⟩ := by
            rw [alLookup_append_right grouped _ a hnone]
            simp [alLookup]
          right
          by_cases hr1 : flat (a, r1) = flat (a, s)
          · refine ⟨⟨[s], flat (a, s)⟩, hl2, r2, ?_, ?_⟩
            · rcases List.mem_cons.mp h2 with he | hm
              · exact absurd (hr1.trans (congrArg flat he).symm) hne
              · exact hm
            · intro hceq
              exact hne (hr1.trans hceq.symm)
          · refine ⟨⟨[s], flat (a, s)⟩, hl2, r1, ?_, ?_⟩
            · rcases List.mem_cons.mp h1 with he | hm
              · exact absurd (congrArg flat he) hr1
              · exact hm
            · exact hr1
        · left
          have hl2 : alLookup (grouped ++ [(b, ⟨[s], flat (b, s)⟩)]) a = none := by
            rw [alLookup_append_right grouped _ a hnone]
            have hba : ¬ b = a := fun hh => hab hh.symm
            simp [alLookup, hba]
          refine ⟨hl2, r1, r2, ?_, ?_, hne⟩
          · rcases List.mem_cons.mp h1 with he | hm
            · exact absurd (congrArg Prod.fst he) hab
            · exact hm
          · rcases List.mem_cons.mp h2 with he | hm
            · exact absurd (congrArg Prod.fst he) hab
            · exact hm
      · have hab : a ≠ b := by
          intro he
          rw [he, hb] at hsome
          exact absurd hsome (by simp)
        right
        refine ⟨g, alLookup_append_left grouped _ a g hsome, r, ?_, hne⟩
        rcases List.mem_cons.mp h1 with he | hm
        · exact absurd (congrArg Prod.fst he) hab
        · exact hm
    · by_cases hov : flat (b, s) = gb.overrides
      · have hstep : group_go flat ((b, s) :: rest) grouped
            = group_go flat rest
                (alModify grouped b (fun g0 => ⟨g0.regions ++ [s], g0.overrides⟩)) := by
          simp [group_go, hb, hov]
        rw [hstep]
        apply ih
        rcases h with ⟨hnone, r1, r2, h1, h2, hne⟩ | ⟨g, hsome, r, h1, hne⟩
        · have hab : a ≠ b := by
            intro he
            rw [he, hb] at hnone
            exact absurd hnone (by simp)
          left
          have hl2 : alLookup
              (alModify grouped b (fun g0 => ⟨g0.regions ++ [s], g0.overrides⟩)) a
              = none := by
            rw [alLookup_alModify, if_neg (fun hba => hab hba.symm), hnone]
          refine ⟨hl2, r1, r2, ?_, ?_, hne⟩
          · rcases List.mem_cons.mp h1 with he | hm
            · exact absurd (congrArg Prod.fst he) hab
            · exact hm
          · rcases List.mem_cons.mp h2 with he | hm
            · exact absurd (congrArg Prod.fst he) hab
            · exact hm
        · right
          by_cases hab : a = b
          · subst hab
            have hgb : gb = g := by
              rw [hsome] at hb
              exact (Option.some_inj.mp hb).symm
            subst hgb
            have hl2 : alLookup
                (alModify grouped a (fun g0 => ⟨g0.regions ++ [s], g0.overrides⟩)) a
                = some ⟨gb.regions ++ [s], gb.overrides⟩ := by
              rw [alLookup_alModify, if_pos rfl, hsome]
              rfl
            refine ⟨⟨gb.regions ++ [s], gb.overrides⟩, hl2, r, ?_, hne⟩
            rcases List.mem_cons.mp h1 with he | hm
            · exact absurd ((congrArg flat he).trans hov) hne
            · exact hm
          · have hl2 : alLookup
                (alModify grouped b (fun g0 => ⟨g0.regions ++ [s], g0.overrides⟩)) a
                = some g := by
              rw [alLookup_alModify, if_neg (fun hba => hab hba.symm), hsome]
            exact ⟨g, hl2, r, by
              rcases List.mem_cons.mp h1 with he | hm
              · exact absurd (congrArg Prod.fst he) hab
              · exact hm, hne⟩
      · exact ⟨"The overrides didn't match account group for " ++ b ++ "/" ++ s,
          by simp [group_go, hb, hov]⟩

/-- Claim C6: a flat map giving one account two regions with different
overrides makes `aggregate_instances` raise on any key list containing both
pairs — even though `flatten_stacks` accepts exactly such an input without
error. -/
theorem aggregate_conflicting_overrides_raises (keys : List Key) (flat : Key → Ov)
    (a : Account) (r1 r2 : Region)
    (h1 : (a, r1) ∈ keys) (h2 : (a, r2) ∈ keys)
    (hne : flat (a, r1) ≠ flat (a, r2)) :
    (∃ e, aggregate_instances keys flat = Except.error e)
    ∧ (∃ specs, flatten_stacks specs
        = Except.ok [((a, r1), flat (a, r1)), ((a, r2), flat (a, r2))]) := by
  constructor
  · obtain ⟨e, he⟩ := group_go_error flat a keys []
      (Or.inl ⟨rfl, r1, r2, h1, h2, hne⟩)
    refine ⟨e, ?_⟩
    unfold aggregate_instances group_by_account
    rw [he]
  · have hk12 : ((a, r1) : Key) ≠ (a, r2) := fun hk => hne (by rw [hk])
    refine ⟨[⟨[a], [r1], some (flat (a, r1))⟩, ⟨[a], [r2], some (flat (a, r2))⟩], ?_⟩
    show flatten_go [] _ = _
    simp [flatten_go, flatten_accounts, flatten_regions, spec_overrides,
      alHasKey, alLookup, hk12]

/-- Witness for C6 at a concrete conflicting flat map. -/
theorem aggregate_conflicting_overrides_raises_witness :
    (∃ e, aggregate_instances [("a", "r1"), ("a", "r2")]
        (fun k => if k.2 = "r1" then [("p", "1")] else [("p", "2")])
      = Except.error e)
    ∧ (∃ specs, flatten_stacks specs
        = Except.ok [(("a", "r1"), [("p", "1")]), (("a", "r2"), [("p", "2")])]) :=
  aggregate_conflicting_overrides_raises [("a", "r1"), ("a", "r2")]
    (fun k => if k.2 = "r1" then [("p", "1")] else [("p", "2")])
    "a" "r1" "r2" (by decide) (by decide) (by decide)

end StackSets
